import Mathlib

/-!
Shallow embedding of the near-Earth-object explorer (models.py, extract.py,
database.py, write.py) and verification of its specification.

Modelling conventions:
* Python `None` is `Option.none`; a Python attribute that may hold either a
  string or `None` is `Option String`.
* Python floats are modelled by `PyFloat`: either the not-a-number sentinel
  (`float("nan")`) or an exact numeric value.  Only equality on floats is
  exercised by the code under verification, and IEEE equality is captured by
  `PyFloat.pyEq` (NaN is equal to nothing, including itself).
* Object references are modelled by indices, following the design note of the
  specification: `CloseApproach.neo` is an optional index into the database's
  NEO list, and `NearEarthObject.approaches` is a list of indices into the
  database's approach list.
* Python dictionaries built by comprehension (`database.py` lines 47-48) are
  modelled by last-write-wins lookup functions over the underlying list.
* The constructor's auxiliary `neos_with_approaches` dictionary
  (`database.py` lines 50, 55, 59-62) is omitted from the state: no method
  ever reads it, and its `if neo_temp:` guard is never true (the dictionary
  only ever receives the key `None`, which `get(current_neo, None)` never
  finds for an actual NEO object), so it cannot affect construction.
* `CloseApproach.time` keeps the raw timestamp string: the parsing helper
  `cd_to_datetime` lives in `helpers.py`, outside the verified sources, and
  no verified claim depends on the timestamp's internal form.
-/

namespace NeoSpec

/-- A Python float: the `float("nan")` sentinel or an exact value. -/
inductive PyFloat where
  | nan : PyFloat
  | val : ℚ → PyFloat
deriving DecidableEq

/-- Python `==` on floats: NaN compares unequal to everything, including
itself; numeric values compare by value. -/
def PyFloat.pyEq : PyFloat → PyFloat → Bool
  | .val a, .val b => a == b
  | _, _ => false

/-- Python `!=` on floats, the negation of `==`. -/
def PyFloat.pyNe (a b : PyFloat) : Bool := !(a.pyEq b)

/-- Python truthiness of a string-or-None value: `None` and `""` are falsy. -/
def optStrTruthy : Option String → Bool
  | none => false
  | some s => !(s = "")

/-- `models.NearEarthObject`: designation, name, diameter, hazardous flag and
the collection of linked approaches (indices into the database's approach
list, empty until the database constructor links them). -/
structure NearEarthObject where
  designation : Option String
  name : Option String
  diameter : PyFloat
  hazardous : Option Bool
  approaches : List Nat
deriving DecidableEq

/-- `NearEarthObject.__init__` (models.py lines 47-53): each field is read
from the `info` keyword mapping with `info.get`, so an absent key yields the
documented default (`None` for `pdes`, `name` and `pha`, `float("nan")` for
`diameter`), and the approach collection starts empty.  An argument `none`
means the corresponding key is absent from `info`. -/
def NearEarthObject.mkFromInfo (pdes : Option String) (name : Option String)
    (diameter : Option PyFloat) (pha : Option Bool) : NearEarthObject :=
  { designation := pdes
    name := name
    diameter := diameter.getD PyFloat.nan
    hazardous := pha
    approaches := [] }

/-- The value of the `diameter = self.diameter if self.diameter != float("nan")
else "unknown"` expression in `__str__`/`__repr__` (models.py lines 65, 73):
either the raw float or the textual marker. -/
inductive DiameterDisplay where
  | value : PyFloat → DiameterDisplay
  | unknown : DiameterDisplay
deriving DecidableEq

/-- models.py line 65 (in `NearEarthObject.__str__`). -/
def NearEarthObject.strDiameterDisplay (neo : NearEarthObject) : DiameterDisplay :=
  if neo.diameter.pyNe PyFloat.nan then .value neo.diameter else .unknown

/-- models.py line 73 (in `NearEarthObject.__repr__`), the same expression. -/
def NearEarthObject.reprDiameterDisplay (neo : NearEarthObject) : DiameterDisplay :=
  if neo.diameter.pyNe PyFloat.nan then .value neo.diameter else .unknown

/-- The flat mapping returned by `NearEarthObject.serialize`
(models.py lines 80-87). -/
structure NeoSerialized where
  designation : Option String
  name : Option String
  diameter_km : PyFloat
  potentially_hazardous : Option Bool
deriving DecidableEq

/-- `NearEarthObject.serialize` (models.py lines 80-87): each field is copied
verbatim from the object. -/
def NearEarthObject.serialize (neo : NearEarthObject) : NeoSerialized :=
  { designation := neo.designation
    name := neo.name
    diameter_km := neo.diameter
    potentially_hazardous := neo.hazardous }

/-- The name-field substitution performed by the export layer on a serialized
NEO (write.py lines 44-45 and 74-75): `if output_neo["name"] is None:
output_neo["name"] = ""`. -/
def writeNameField (s : NeoSerialized) : String :=
  match s.name with
  | none => ""
  | some n => n

/-- One row of the NEO CSV input, as seen by `extract.load_neos` after
`csv.DictReader` (all fields raw strings; an absent value is `""`). -/
structure NeoCsvRow where
  pdes : String
  name : String
  diameter : String
  pha : String
deriving DecidableEq

/-- extract.py line 41: `line["pha"] = False if line["pha"] in ["N", ""] else
True`. -/
def coercePha (pha : String) : Bool :=
  if pha = "N" ∨ pha = "" then false else true

/-- The per-row body of `extract.load_neos` (extract.py lines 33-50):
an empty `diameter` field becomes the NaN sentinel, otherwise it is parsed by
Python's `float` (supplied here as `parseFloat`, a library function outside
the verified sources); an empty `name` becomes `None`; `pha` is coerced by
`coercePha`; the resulting fields are passed to the `NearEarthObject`
constructor. -/
def loadNeoRow (parseFloat : String → PyFloat) (row : NeoCsvRow) : NearEarthObject :=
  let diameter := if row.diameter = "" then PyFloat.nan else parseFloat row.diameter
  let name := if row.name = "" then none else some row.name
  let pha := coercePha row.pha
  NearEarthObject.mkFromInfo (some row.pdes) name (some diameter) (some pha)

/-- `models.CloseApproach`: the foreign-key designation, the raw timestamp,
distance and velocity, and the reference to the linked NEO (an index into the
database's NEO list, `none` until the database constructor sets it). -/
structure CloseApproach where
  _designation : Option String
  time : Option String
  distance : PyFloat
  velocity : PyFloat
  neo : Option Nat
deriving DecidableEq

/-- The `_neos = {neo.designation: neo for neo in neos}` dictionary
(database.py line 47), as a lookup returning the index of the NEO stored under
a designation key.  A dict comprehension is last-write-wins, so the lookup
prefers the latest entry; `base` is the index of the head of the remaining
list. -/
def neosIndexLookupFrom (base : Nat) : List NearEarthObject → Option String → Option Nat
  | [], _ => none
  | n :: rest, d =>
    match neosIndexLookupFrom (base + 1) rest d with
    | some i => some i
    | none => if n.designation = d then some base else none

/-- Lookup in the `_neos` designation index (database.py line 47). -/
def neosIndexLookup (neos : List NearEarthObject) (d : Option String) : Option Nat :=
  neosIndexLookupFrom 0 neos d

/-- The `_designations = {neo.name: neo.designation for neo in neos}`
dictionary (database.py line 48): maps a name key to the designation of the
latest NEO carrying that name.  `none` means the key is absent; note the
comprehension does not filter out unnamed NEOs, so the key `None` (here
`nm = none`) is present as soon as some NEO has no name. -/
def nameToDesignationFrom : List NearEarthObject → Option String → Option (Option String)
  | [], _ => none
  | n :: rest, nm =>
    match nameToDesignationFrom rest nm with
    | some d => some d
    | none => if n.name = nm then some n.designation else none

/-- `NEODatabase` state after construction: the (mutated) NEO collection and
the (mutated) close-approach collection.  The designation and name indexes
are recomputed by the lookup functions above; linking never changes a
designation or a name, so they agree with the dictionaries built at
construction time. -/
structure NEODatabase where
  neos : List NearEarthObject
  approaches : List CloseApproach
deriving DecidableEq

/-- `current_neo.approaches.append(approach)` (database.py line 57): append
approach index `j` to the approach collection of the NEO at index `i`. -/
def appendApproach : List NearEarthObject → Nat → Nat → List NearEarthObject
  | [], _, _ => []
  | n :: rest, 0, j => { n with approaches := n.approaches ++ [j] } :: rest
  | n :: rest, i + 1, j => n :: appendApproach rest i j

/-- Pair each close approach with its position in the approach collection,
starting from `base`: the identity of a Python approach object is its index. -/
def enumIdx (base : Nat) : List CloseApproach → List (Nat × CloseApproach)
  | [] => []
  | a :: rest => (base, a) :: enumIdx (base + 1) rest

/-- The linking loop of `NEODatabase.__init__` (database.py lines 51-57): for
each approach in order, resolve its foreign key in the `_neos` index (a miss
is a `KeyError`, which aborts construction: result `none`), set the
approach's `neo` reference to the resolved NEO, and append the approach to
that NEO's collection.  Returns the mutated NEO list and approach list. -/
def linkAll (lookup : Option String → Option Nat) (neos : List NearEarthObject) :
    List (Nat × CloseApproach) → Option (List NearEarthObject × List CloseApproach)
  | [] => some (neos, [])
  | (j, a) :: rest =>
    match lookup a._designation with
    | none => none
    | some i =>
      match linkAll lookup (appendApproach neos i j) rest with
      | none => none
      | some (neosOut, restOut) => some (neosOut, { a with neo := some i } :: restOut)

/-- `NEODatabase.__init__` (database.py lines 27-62): store both collections,
build the designation index, and run the linking loop.  `none` models the
constructor raising (`KeyError` on an unmatched foreign key). -/
def NEODatabase.build (neos : List NearEarthObject) (approaches : List CloseApproach) :
    Option NEODatabase :=
  match linkAll (neosIndexLookup neos) neos (enumIdx 0 approaches) with
  | none => none
  | some (neosOut, apprsOut) => some { neos := neosOut, approaches := apprsOut }

/-- `NEODatabase.get_neo_by_designation` (database.py lines 64-77):
`return self._neos.get(designation, None) if designation else None`. -/
def NEODatabase.get_neo_by_designation (db : NEODatabase) (designation : Option String) :
    Option NearEarthObject :=
  if optStrTruthy designation then
    (neosIndexLookup db.neos designation).bind fun i => db.neos[i]?
  else none

/-- `NEODatabase.get_neo_by_name` (database.py lines 79-94):
`designation_by_name = self._designations.get(name, None)` followed by
`return self.get_neo_by_designation(designation_by_name)`.  A key miss and a
stored `None` designation both yield `None` here, hence the `getD none`. -/
def NEODatabase.get_neo_by_name (db : NEODatabase) (name : Option String) :
    Option NearEarthObject :=
  db.get_neo_by_designation ((nameToDesignationFrom db.neos name).getD none)

/-- The loop body of `NEODatabase.query` (database.py lines 111-123): each
approach is yielded when the filter mapping is empty (`filters != {}` is
false) or when `all(map(lambda f: f(approach), [...]))` holds over the
mapping's values. -/
def queryLoop (filters : List (String × (CloseApproach → Bool))) :
    List CloseApproach → List CloseApproach
  | [] => []
  | approach :: rest =>
    if !filters.isEmpty then
      if (filters.map fun p => p.2 approach).all id then
        approach :: queryLoop filters rest
      else
        queryLoop filters rest
    else
      approach :: queryLoop filters rest

/-- `NEODatabase.query` (database.py lines 96-123).  The generated stream is
modelled by the list of yielded approaches, in yield order; the filter
mapping's items are modelled as (field, predicate) pairs. -/
def NEODatabase.query (db : NEODatabase) (filters : List (String × (CloseApproach → Bool))) :
    List CloseApproach :=
  queryLoop filters db.approaches

/-! ### Basic lemmas about the query loop -/

theorem pyNe_nan_right (d : PyFloat) : d.pyNe PyFloat.nan = true := by
  cases d <;> rfl

theorem queryLoop_eq_filter (fs : List (String × (CloseApproach → Bool)))
    (l : List CloseApproach) :
    queryLoop fs l = l.filter (fun a => (fs.map fun p => p.2 a).all id) := by
  induction l with
  | nil => rfl
  | cons a rest ih =>
    rcases fs with _ | ⟨p, ps⟩
    · simpa [queryLoop] using ih
    · rw [queryLoop, List.filter_cons]
      by_cases h : (((p :: ps).map fun q => q.2 a).all id) = true
      · simp [List.isEmpty, h, ih]
      · simp only [List.isEmpty, Bool.not_false, if_true, h, if_false]
        simp only [Bool.not_eq_true] at h
        simp [h, ih]

theorem filter_inter_filter (l : List CloseApproach) (g1 g2 : CloseApproach → Bool) :
    l.filter (fun a => g1 a && g2 a) =
      (l.filter g1).filter (fun a => decide (a ∈ l.filter g2)) := by
  rw [List.filter_filter]
  apply List.filter_congr
  intro a ha
  have : a ∈ l.filter g2 ↔ g2 a = true := by
    simp [List.mem_filter, ha]
  by_cases h2 : g2 a = true
  · simp [h2, this]
  · simp only [Bool.not_eq_true] at h2
    simp [h2, this]

/-! ### Lemmas about the designation index (`_neos` dictionary) -/

theorem lookupFrom_eq_none (l : List NearEarthObject) (d : Option String) :
    ∀ base, (∀ n ∈ l, n.designation ≠ d) → neosIndexLookupFrom base l d = none := by
  induction l with
  | nil => intro base _; rfl
  | cons n rest ih =>
    intro base h
    simp only [neosIndexLookupFrom]
    rw [ih (base + 1) fun m hm => h m (List.mem_cons_of_mem _ hm)]
    simp [h n (List.mem_cons_self _ _)]

theorem lookupFrom_designation (l : List NearEarthObject) (d : Option String) :
    ∀ base i, neosIndexLookupFrom base l d = some i →
      ∃ k, i = base + k ∧ ∃ n, l[k]? = some n ∧ n.designation = d := by
  induction l with
  | nil => intro base i h; cases h
  | cons n rest ih =>
    intro base i h
    simp only [neosIndexLookupFrom] at h
    cases hr : neosIndexLookupFrom (base + 1) rest d with
    | some j =>
      rw [hr] at h
      cases h
      obtain ⟨k, hik, n', hn', hd⟩ := ih (base + 1) i hr
      exact ⟨k + 1, by omega, n', by simpa using hn', hd⟩
    | none =>
      rw [hr] at h
      by_cases hd : n.designation = d
      · rw [if_pos hd] at h
        cases h
        exact ⟨0, by omega, n, by simp, hd⟩
      · rw [if_neg hd] at h
        cases h

theorem lookupFrom_eq_some_last (l : List NearEarthObject) (d : Option String) :
    ∀ base k n, l[k]? = some n → n.designation = d →
      (∀ m n', k < m → l[m]? = some n' → n'.designation ≠ d) →
      neosIndexLookupFrom base l d = some (base + k) := by
  induction l with
  | nil => intro base k n hk _ _; simp at hk
  | cons x rest ih =>
    intro base k n hk hd hlast
    simp only [neosIndexLookupFrom]
    cases k with
    | zero =>
      have hx : x = n := by simpa using hk
      have hrest : neosIndexLookupFrom (base + 1) rest d = none := by
        apply lookupFrom_eq_none
        intro m hm
        obtain ⟨q, hq⟩ := List.mem_iff_getElem?.mp hm
        exact hlast (q + 1) m (by omega) (by simpa using hq)
      rw [hrest]
      subst hx
      simp [hd]
    | succ k' =>
      have hk' : rest[k']? = some n := by simpa using hk
      have hlast' : ∀ m n', k' < m → rest[m]? = some n' → n'.designation ≠ d := by
        intro m n' hm hmn
        exact hlast (m + 1) n' (by omega) (by simpa using hmn)
      rw [ih (base + 1) k' n hk' hd hlast']
      show some (base + 1 + k') = some (base + (k' + 1))
      congr 1
      omega

theorem lookupFrom_isSome (l : List NearEarthObject) (d : Option String) :
    ∀ base, (∃ n ∈ l, n.designation = d) → (neosIndexLookupFrom base l d).isSome := by
  induction l with
  | nil => rintro base ⟨n, hn, -⟩; simp at hn
  | cons x rest ih =>
    rintro base ⟨n, hn, hd⟩
    simp only [neosIndexLookupFrom]
    cases hr : neosIndexLookupFrom (base + 1) rest d with
    | some j => simp
    | none =>
      rcases List.mem_cons.mp hn with rfl | hmem
      · simp [hd]
      · have := ih (base + 1) ⟨n, hmem, hd⟩
        rw [hr] at this
        simp at this

theorem designation_index_unique (neos : List NearEarthObject)
    (huniq : List.Pairwise (fun a b => a.designation ≠ b.designation) neos)
    {i i' : Nat} {n n' : NearEarthObject}
    (hi : neos[i]? = some n) (hi' : neos[i']? = some n')
    (hd : n.designation = n'.designation) : i = i' := by
  obtain ⟨hilt, hig⟩ := List.getElem?_eq_some.mp hi
  obtain ⟨hilt', hig'⟩ := List.getElem?_eq_some.mp hi'
  have hpw := List.pairwise_iff_getElem.mp huniq
  rcases Nat.lt_trichotomy i i' with h | h | h
  · exact absurd (hig ▸ hig' ▸ hd) (hpw i i' hilt hilt' h)
  · exact h
  · exact absurd (hig' ▸ hig ▸ hd.symm) (hpw i' i hilt' hilt h)

/-! ### Lemmas about the linking loop -/

theorem length_appendApproach (l : List NearEarthObject) (i j : Nat) :
    (appendApproach l i j).length = l.length := by
  induction l generalizing i with
  | nil => rfl
  | cons n rest ih =>
    cases i with
    | zero => rfl
    | succ i' => simpa [appendApproach] using ih i'

theorem getElem?_appendApproach (l : List NearEarthObject) (i j k : Nat) :
    (appendApproach l i j)[k]? =
      if k = i then (l[k]?).map fun n => { n with approaches := n.approaches ++ [j] }
      else l[k]? := by
  induction l generalizing i k with
  | nil => simp [appendApproach]
  | cons n rest ih =>
    cases i with
    | zero =>
      cases k with
      | zero => simp [appendApproach]
      | succ k' => simp [appendApproach]
    | succ i' =>
      cases k with
      | zero => simp [appendApproach]
      | succ k' => simpa [appendApproach] using ih i' k'

theorem getElem?_enumIdx (l : List CloseApproach) :
    ∀ base k, (enumIdx base l)[k]? = (l[k]?).map fun a => (base + k, a) := by
  induction l with
  | nil => intro base k; simp [enumIdx]
  | cons a rest ih =>
    intro base k
    cases k with
    | zero => simp [enumIdx]
    | succ k' =>
      simp only [enumIdx, List.getElem?_cons_succ, ih (base + 1) k']
      cases rest[k']? with
      | none => simp
      | some b =>
        simp
        omega

theorem length_enumIdx (l : List CloseApproach) : ∀ base, (enumIdx base l).length = l.length := by
  induction l with
  | nil => intro base; rfl
  | cons a rest ih => intro base; simpa [enumIdx] using ih (base + 1)

theorem mem_enumIdx_of_getElem? (l : List CloseApproach) (base k : Nat) (a : CloseApproach)
    (h : l[k]? = some a) : (base + k, a) ∈ enumIdx base l := by
  have hk : (enumIdx base l)[k]? = some (base + k, a) := by
    rw [getElem?_enumIdx, h]
    rfl
  exact List.getElem?_mem hk

theorem getElem?_of_mem_enumIdx (l : List CloseApproach) :
    ∀ base p, p ∈ enumIdx base l → ∃ k, p.1 = base + k ∧ l[k]? = some p.2 := by
  induction l with
  | nil => intro base p h; simp [enumIdx] at h
  | cons a rest ih =>
    intro base p h
    rcases List.mem_cons.mp h with rfl | hmem
    · exact ⟨0, by omega, by simp⟩
    · obtain ⟨k, hk, hget⟩ := ih (base + 1) p hmem
      exact ⟨k + 1, by omega, by simpa using hget⟩

/-- Closed form of the linking loop on success: every yielded approach is the
input approach with its `neo` reference set to the index resolved from its
foreign key, and every NEO's approach collection is extended, in input order,
by the indices of exactly the approaches that resolved to it. -/
theorem linkAll_some_spec (lookup : Option String → Option Nat) :
    ∀ (ps : List (Nat × CloseApproach)) (neos neosOut : List NearEarthObject)
      (out : List CloseApproach),
      linkAll lookup neos ps = some (neosOut, out) →
      out = ps.map (fun p => { p.2 with neo := lookup p.2._designation }) ∧
      neosOut.length = neos.length ∧
      ∀ i : Nat, neosOut[i]? = (neos[i]?).map fun n =>
        { n with approaches := n.approaches ++
            (ps.filter fun p => lookup p.2._designation == some i).map Prod.fst } := by
  intro ps
  induction ps with
  | nil =>
    intro neos neosOut out h
    simp only [linkAll] at h
    cases h
    refine ⟨rfl, rfl, fun i => ?_⟩
    cases hn : neos[i]? <;> simp
  | cons p rest ih =>
    intro neos neosOut out h
    obtain ⟨j, a⟩ := p
    cases hl : lookup a._designation with
    | none =>
      simp only [linkAll, hl] at h
      cases h
    | some i0 =>
      cases hrec : linkAll lookup (appendApproach neos i0 j) rest with
      | none =>
        simp only [linkAll, hl, hrec] at h
        cases h
      | some pair =>
        obtain ⟨neos1, out1⟩ := pair
        obtain ⟨hout1, hlen1, hget1⟩ := ih (appendApproach neos i0 j) neos1 out1 hrec
        simp only [linkAll, hl, hrec] at h
        cases h
        refine ⟨?_, ?_, ?_⟩
        · simp [hout1, hl]
        · rw [hlen1, length_appendApproach]
        · intro i
          rw [hget1 i, getElem?_appendApproach]
          by_cases hi : i = i0
          · subst hi
            have hP : (lookup a._designation == some i) = true := by
              simp [hl]
            rw [if_pos rfl]
            cases hn : neos[i]? with
            | none => simp
            | some n =>
              simp only [Option.map_some, Option.map_map, List.filter_cons, hP,
                if_true, List.map_cons]
              simp [List.append_assoc]
          · have hP : ¬((lookup a._designation == some i) = true) := by
              simp [hl, Ne.symm hi]
            rw [if_neg hi]
            cases hn : neos[i]? with
            | none => simp
            | some n =>
              simp only [Option.map_some, List.filter_cons]
              rw [if_neg hP]

theorem linkAll_isSome (lookup : Option String → Option Nat) :
    ∀ (ps : List (Nat × CloseApproach)) (neos : List NearEarthObject),
      (∀ p ∈ ps, (lookup p.2._designation).isSome) → (linkAll lookup neos ps).isSome := by
  intro ps
  induction ps with
  | nil => intro neos _; simp [linkAll]
  | cons p rest ih =>
    intro neos h
    obtain ⟨j, a⟩ := p
    have hhead := h (j, a) (List.mem_cons_self _ _)
    cases hl : lookup a._designation with
    | none => rw [hl] at hhead; cases hhead
    | some i0 =>
      have hrest := ih (appendApproach neos i0 j) fun q hq => h q (List.mem_cons_of_mem _ hq)
      cases hrec : linkAll lookup (appendApproach neos i0 j) rest with
      | none => simp [hrec] at hrest
      | some pair =>
        obtain ⟨x, y⟩ := pair
        simp [linkAll, hl, hrec]

theorem linkAll_eq_none (lookup : Option String → Option Nat) :
    ∀ (ps : List (Nat × CloseApproach)) (neos : List NearEarthObject) (p : Nat × CloseApproach),
      p ∈ ps → lookup p.2._designation = none → linkAll lookup neos ps = none := by
  intro ps
  induction ps with
  | nil => intro neos p h; simp at h
  | cons q rest ih =>
    intro neos p hp hnone
    obtain ⟨j, a⟩ := q
    rcases List.mem_cons.mp hp with rfl | hmem
    · simp only [linkAll]
      rw [show lookup a._designation = none from hnone]
    · cases hl : lookup a._designation with
      | none => simp [linkAll, hl]
      | some i0 => simp [linkAll, hl, ih (appendApproach neos i0 j) p hmem hnone]

/-! ### Wrapper lemmas at the `neosIndexLookup` level -/

theorem neosIndexLookup_eq_none (l : List NearEarthObject) (d : Option String)
    (h : ∀ n ∈ l, n.designation ≠ d) : neosIndexLookup l d = none :=
  lookupFrom_eq_none l d 0 h

theorem neosIndexLookup_designation (l : List NearEarthObject) (d : Option String)
    (i : Nat) (h : neosIndexLookup l d = some i) :
    ∃ n, l[i]? = some n ∧ n.designation = d := by
  obtain ⟨k, hik, n, hn, hd⟩ := lookupFrom_designation l d 0 i h
  have hki : k = i := by omega
  subst hki
  exact ⟨n, hn, hd⟩

theorem neosIndexLookup_eq_some_last (l : List NearEarthObject) (d : Option String)
    (k : Nat) (n : NearEarthObject) (hk : l[k]? = some n) (hd : n.designation = d)
    (hlast : ∀ m n', k < m → l[m]? = some n' → n'.designation ≠ d) :
    neosIndexLookup l d = some k := by
  simpa using lookupFrom_eq_some_last l d 0 k n hk hd hlast

theorem neosIndexLookup_isSome (l : List NearEarthObject) (d : Option String)
    (h : ∃ n ∈ l, n.designation = d) : (neosIndexLookup l d).isSome :=
  lookupFrom_isSome l d 0 h

/-! ### Claim theorems: record types, extraction and serialization -/

/-- C9: in `__str__` and `__repr__`, the branch substituting the textual
marker `unknown` for the diameter is never taken: the equality-based NaN test
`self.diameter != float("nan")` evaluates true for every diameter, including
the NaN sentinel itself, so the raw diameter value is always used. -/
theorem C9_unknown_branch_never_taken (neo : NearEarthObject) :
    neo.strDiameterDisplay = DiameterDisplay.value neo.diameter ∧
    neo.reprDiameterDisplay = DiameterDisplay.value neo.diameter ∧
    neo.diameter.pyNe PyFloat.nan = true := by
  refine ⟨?_, ?_, pyNe_nan_right neo.diameter⟩ <;>
    simp [NearEarthObject.strDiameterDisplay, NearEarthObject.reprDiameterDisplay,
      pyNe_nan_right]

/-- C7 counterexample: a CSV row whose hazard field is empty (`pha = ""`)
does produce a `NearEarthObject` whose hazardous flag is the explicit
non-hazardous value `False`, not an unset value — refuting the claim that
absence is never silently mapped to `False`. -/
theorem C7_counterexample :
    (loadNeoRow (fun _ => PyFloat.nan) ⟨"433", "Eros", "", ""⟩).hazardous = some false ∧
    (loadNeoRow (fun _ => PyFloat.nan) ⟨"433", "Eros", "", ""⟩).hazardous ≠ none := by
  exact ⟨rfl, by decide⟩

/-- C7 (amended): when the `pha` key is absent from the constructor's `info`
mapping, the hazardous flag is unset (`None`); but the CSV loader coerces an
empty hazard field to the explicit boolean `False` (`pha in ["N", ""]`), so
for records loaded from the CSV an absent hazard field yields
`hazardous = False`. -/
theorem C7_hazard_defaults (pdes name : Option String) (diam : Option PyFloat)
    (parseFloat : String → PyFloat) (row : NeoCsvRow) (hrow : row.pha = "") :
    (NearEarthObject.mkFromInfo pdes name diam none).hazardous = none ∧
    (loadNeoRow parseFloat row).hazardous = some false := by
  constructor
  · rfl
  · simp [loadNeoRow, NearEarthObject.mkFromInfo, coercePha, hrow]

theorem C7_hazard_defaults_witness :
    (NearEarthObject.mkFromInfo (some "433") none none none).hazardous = none ∧
    (loadNeoRow (fun _ => PyFloat.nan) ⟨"433", "", "", ""⟩).hazardous = some false :=
  C7_hazard_defaults (some "433") none none (fun _ => PyFloat.nan) ⟨"433", "", "", ""⟩ rfl

/-- C8 counterexample: for a NEO whose name is unset, `serialize` leaves the
name field unset (`None`) rather than substituting the empty string. -/
theorem C8_counterexample :
    ((NearEarthObject.mkFromInfo (some "433") none none none).serialize).name = none ∧
    ((NearEarthObject.mkFromInfo (some "433") none none none).serialize).name ≠ some "" := by
  exact ⟨rfl, by decide⟩

/-- C8 (amended): `serialize` returns the flat mapping of designation, name,
diameter and hazardous flag with every field copied verbatim — in particular
the name field stays unset (`None`) when the NEO's name is unset; the
empty-string substitution for an unset name is performed by the export layer
(`write_to_csv` / `write_to_json`) on the serialized record. -/
theorem C8_serialize_fields (neo : NearEarthObject) :
    neo.serialize = ⟨neo.designation, neo.name, neo.diameter, neo.hazardous⟩ ∧
    (neo.name = none → writeNameField neo.serialize = "") := by
  refine ⟨rfl, fun h => ?_⟩
  simp [writeNameField, NearEarthObject.serialize, h]

theorem C8_serialize_fields_witness :
    writeNameField (NearEarthObject.mkFromInfo (some "433") none none none).serialize = "" :=
  (C8_serialize_fields (NearEarthObject.mkFromInfo (some "433") none none none)).2 rfl

/-- C5: `query` yields exactly the approaches on which every supplied
predicate evaluates true (logical AND), in original order; and for two pure
predicates, `query` over both filters equals the order-preserving
intersection of the two single-filter query results. -/
theorem C5_query_and_semantics (db : NEODatabase)
    (fs : List (String × (CloseApproach → Bool)))
    (n1 n2 : String) (f1 f2 : CloseApproach → Bool) :
    db.query fs = db.approaches.filter (fun a => (fs.map fun p => p.2 a).all id) ∧
    db.query [(n1, f1), (n2, f2)] =
      (db.query [(n1, f1)]).filter (fun a => decide (a ∈ db.query [(n2, f2)])) := by
  constructor
  · exact queryLoop_eq_filter fs db.approaches
  · rw [NEODatabase.query, NEODatabase.query, NEODatabase.query,
      queryLoop_eq_filter, queryLoop_eq_filter, queryLoop_eq_filter]
    simp only [List.map_cons, List.map_nil, List.all_cons, List.all_nil, id_def,
      Bool.and_true]
    exact filter_inter_filter db.approaches f1 f2

/-! ### Claim theorems: lookups, construction failure -/

/-- C4: `get_neo_by_designation` returns the NEO whose designation exactly
matches the lookup key for every designation carried by an input NEO, returns
not-found (`None`) for every key matching no NEO — including an unset (`None`)
or empty key — and, being a total function, never raises.  The hypotheses
record the data-model preconditions: designations are unique and are
non-empty strings. -/
theorem C4_get_neo_by_designation_exact (db : NEODatabase)
    (huniq : List.Pairwise (fun a b => a.designation ≠ b.designation) db.neos)
    (htruthy : ∀ n ∈ db.neos, optStrTruthy n.designation = true) :
    (∀ i : Nat, ∀ n, db.neos[i]? = some n →
      db.get_neo_by_designation n.designation = some n) ∧
    (∀ d, (∀ n ∈ db.neos, n.designation ≠ d) → db.get_neo_by_designation d = none) ∧
    db.get_neo_by_designation none = none ∧
    db.get_neo_by_designation (some "") = none := by
  refine ⟨?_, ?_, rfl, rfl⟩
  · intro i n hn
    have htr := htruthy n (List.getElem?_mem hn)
    have hlast : ∀ m n', i < m → db.neos[m]? = some n' →
        n'.designation ≠ n.designation := by
      intro m n' him hm hd
      have := designation_index_unique db.neos huniq hm hn hd
      omega
    have hlook : neosIndexLookup db.neos n.designation = some i :=
      neosIndexLookup_eq_some_last db.neos n.designation i n hn rfl hlast
    simp [NEODatabase.get_neo_by_designation, htr, hlook, hn]
  · intro d hd
    have hnone : neosIndexLookup db.neos d = none := neosIndexLookup_eq_none db.neos d hd
    cases ht : optStrTruthy d with
    | false => simp [NEODatabase.get_neo_by_designation, ht]
    | true => simp [NEODatabase.get_neo_by_designation, ht, hnone]

theorem C4_get_neo_by_designation_exact_witness :
    (NEODatabase.mk [⟨some "433", some "Eros", PyFloat.val 16, some false, []⟩]
        []).get_neo_by_designation (some "433") =
      some ⟨some "433", some "Eros", PyFloat.val 16, some false, []⟩ ∧
    (NEODatabase.mk [⟨some "433", some "Eros", PyFloat.val 16, some false, []⟩]
        []).get_neo_by_designation (some "2101") = none ∧
    (NEODatabase.mk [⟨some "433", some "Eros", PyFloat.val 16, some false, []⟩]
        []).get_neo_by_designation none = none := by
  have h := C4_get_neo_by_designation_exact
    (NEODatabase.mk [⟨some "433", some "Eros", PyFloat.val 16, some false, []⟩] [])
    (by decide) (by decide)
  exact ⟨h.1 0 ⟨some "433", some "Eros", PyFloat.val 16, some false, []⟩ rfl,
    h.2.1 (some "2101") (by decide), h.2.2.1⟩

/-- C6: when some close approach carries a foreign-key designation matching no
NEO in the input collection, database construction fails (the designation
index lookup raises `KeyError`, modelled as result `none`); it never completes
normally while dropping or leaving unlinked the offending record. -/
theorem C6_unmatched_foreign_key_fails (neos : List NearEarthObject)
    (apprs : List CloseApproach) (a : CloseApproach) (ha : a ∈ apprs)
    (hnomatch : ∀ n ∈ neos, n.designation ≠ a._designation) :
    NEODatabase.build neos apprs = none := by
  obtain ⟨k, hk⟩ := List.mem_iff_getElem?.mp ha
  have hmem : (0 + k, a) ∈ enumIdx 0 apprs := mem_enumIdx_of_getElem? apprs 0 k a hk
  have hnone : neosIndexLookup neos a._designation = none :=
    neosIndexLookup_eq_none neos a._designation hnomatch
  rw [NEODatabase.build,
    linkAll_eq_none (neosIndexLookup neos) (enumIdx 0 apprs) neos (0 + k, a) hmem hnone]

theorem C6_unmatched_foreign_key_fails_witness :
    NEODatabase.build [⟨some "433", some "Eros", PyFloat.val 16, some false, []⟩]
      [⟨some "999", none, PyFloat.nan, PyFloat.nan, none⟩] = none :=
  C6_unmatched_foreign_key_fails
    [⟨some "433", some "Eros", PyFloat.val 16, some false, []⟩]
    [⟨some "999", none, PyFloat.nan, PyFloat.nan, none⟩]
    ⟨some "999", none, PyFloat.nan, PyFloat.nan, none⟩ (by decide) (by decide)

/-- C3 (code bug): `get_neo_by_name`'s own docstring promises that no NEO is
associated with the `None` singleton, yet the `_designations` dictionary is
built without filtering out unnamed NEOs, so on a database containing an NEO
without a name — which the loader routinely produces — looking up the unset
name `None` returns that NEO instead of not-found. -/
theorem C3_unset_name_lookup_code_bug :
    NEODatabase.build [⟨some "433", none, PyFloat.nan, none, []⟩] [] =
      some (NEODatabase.mk [⟨some "433", none, PyFloat.nan, none, []⟩] []) ∧
    (NEODatabase.mk [⟨some "433", none, PyFloat.nan, none, []⟩]
        []).get_neo_by_name none = some ⟨some "433", none, PyFloat.nan, none, []⟩ ∧
    (NEODatabase.mk [⟨some "433", none, PyFloat.nan, none, []⟩]
        []).get_neo_by_name none ≠ none := by
  refine ⟨rfl, by decide, by decide⟩

/-- C2: on any constructed database, `query` with an empty filter mapping
yields exactly the full close-approach collection, and the collection holds
the approaches in the original relative order in which they were presented to
the constructor (the j-th stored approach is the j-th input approach, with
only its `neo` reference filled in) — independent of any timestamp order. -/
theorem C2_query_empty_yields_all_in_order (neos : List NearEarthObject)
    (apprs : List CloseApproach) (db : NEODatabase)
    (hdb : NEODatabase.build neos apprs = some db) :
    db.query [] = db.approaches ∧
    db.approaches.length = apprs.length ∧
    ∀ j : Nat, db.approaches[j]? = (apprs[j]?).map fun a =>
      { a with neo := neosIndexLookup neos a._designation } := by
  rw [NEODatabase.build] at hdb
  cases hlink : linkAll (neosIndexLookup neos) neos (enumIdx 0 apprs) with
  | none => rw [hlink] at hdb; cases hdb
  | some pair =>
    obtain ⟨neosOut, out⟩ := pair
    obtain ⟨hout, hlen, hget⟩ :=
      linkAll_some_spec (neosIndexLookup neos) (enumIdx 0 apprs) neos neosOut out hlink
    rw [hlink] at hdb
    cases hdb
    refine ⟨?_, ?_, ?_⟩
    · rw [NEODatabase.query, queryLoop_eq_filter]
      simp
    · show out.length = apprs.length
      rw [hout, List.length_map, length_enumIdx]
    · intro j
      show out[j]? = _
      rw [hout, List.getElem?_map, getElem?_enumIdx]
      cases hk : apprs[j]? with
      | none => rfl
      | some a => rfl

theorem C2_query_empty_yields_all_in_order_witness :
    ∃ db, NEODatabase.build [⟨some "433", some "Eros", PyFloat.val 16, some false, []⟩]
        [⟨some "433", none, PyFloat.val 1, PyFloat.val 5, none⟩] = some db ∧
      db.query [] = db.approaches ∧ db.approaches.length = 1 := by
  refine ⟨NEODatabase.mk
      [⟨some "433", some "Eros", PyFloat.val 16, some false, [0]⟩]
      [⟨some "433", none, PyFloat.val 1, PyFloat.val 5, some 0⟩], by decide, ?_, ?_⟩
  · exact (C2_query_empty_yields_all_in_order
      [⟨some "433", some "Eros", PyFloat.val 16, some false, []⟩]
      [⟨some "433", none, PyFloat.val 1, PyFloat.val 5, none⟩] _ (by decide)).1
  · exact (C2_query_empty_yields_all_in_order
      [⟨some "433", some "Eros", PyFloat.val 16, some false, []⟩]
      [⟨some "433", none, PyFloat.val 1, PyFloat.val 5, none⟩] _ (by decide)).2.1

/-- C1: for every database built from NEOs with unique designations and empty
approach collections and from approaches whose foreign keys all match some
NEO, construction succeeds and the links are bijectively consistent: every
stored approach's `neo` reference points to the (unique) NEO whose
designation equals the approach's foreign key, the approach's index appears
in that NEO's approach collection, and every index in any NEO's approach
collection refers back to an approach whose `neo` reference is that NEO. -/
theorem C1_bijective_link_invariant (neos : List NearEarthObject)
    (apprs : List CloseApproach)
    (huniq : List.Pairwise (fun a b => a.designation ≠ b.designation) neos)
    (hempty : ∀ n ∈ neos, n.approaches = [])
    (hmatch : ∀ a ∈ apprs, ∃ n ∈ neos, n.designation = a._designation) :
    ∃ db, NEODatabase.build neos apprs = some db ∧
      (∀ j : Nat, ∀ a, db.approaches[j]? = some a →
        ∃ i : Nat, a.neo = some i ∧
          ∃ n, db.neos[i]? = some n ∧ n.designation = a._designation ∧
            j ∈ n.approaches ∧
            ∀ i' : Nat, ∀ n', db.neos[i']? = some n' →
              n'.designation = a._designation → i' = i) ∧
      (∀ i : Nat, ∀ n, db.neos[i]? = some n → ∀ j ∈ n.approaches,
        ∃ a, db.approaches[j]? = some a ∧ a.neo = some i ∧
          a._designation = n.designation) := by
  have hsome : (linkAll (neosIndexLookup neos) neos (enumIdx 0 apprs)).isSome := by
    apply linkAll_isSome
    intro p hp
    obtain ⟨k, hk1, hk2⟩ := getElem?_of_mem_enumIdx apprs 0 p hp
    exact neosIndexLookup_isSome neos p.2._designation (hmatch p.2 (List.getElem?_mem hk2))
  rw [Option.isSome_iff_exists] at hsome
  obtain ⟨pair, hlink⟩ := hsome
  obtain ⟨neosOut, out⟩ := pair
  obtain ⟨hout, hlen, hget⟩ :=
    linkAll_some_spec (neosIndexLookup neos) (enumIdx 0 apprs) neos neosOut out hlink
  refine ⟨⟨neosOut, out⟩, by rw [NEODatabase.build, hlink], ?_, ?_⟩
  · intro j a hja
    rw [show (NEODatabase.mk neosOut out).approaches = out from rfl, hout,
      List.getElem?_map, getElem?_enumIdx] at hja
    cases hk : apprs[j]? with
    | none => rw [hk] at hja; cases hja
    | some a0 =>
      rw [hk] at hja
      simp only [Option.map_some'] at hja
      have ha : a = { a0 with neo := neosIndexLookup neos a0._designation } :=
        (Option.some.inj hja).symm
      subst ha
      obtain ⟨i, hi⟩ := Option.isSome_iff_exists.mp
        (neosIndexLookup_isSome neos a0._designation (hmatch a0 (List.getElem?_mem hk)))
      obtain ⟨n0, hn0, hd0⟩ := neosIndexLookup_designation neos a0._designation i hi
      refine ⟨i, hi, ?_⟩
      refine ⟨{ n0 with approaches := n0.approaches ++
          ((enumIdx 0 apprs).filter fun p =>
            neosIndexLookup neos p.2._designation == some i).map Prod.fst },
        ?_, hd0, ?_, ?_⟩
      · show neosOut[i]? = _
        rw [hget i, hn0]
        rfl
      · have hmem0 : (0 + j, a0) ∈ enumIdx 0 apprs := mem_enumIdx_of_getElem? apprs 0 j a0 hk
        have hfil : (0 + j, a0) ∈ (enumIdx 0 apprs).filter fun p =>
            neosIndexLookup neos p.2._designation == some i :=
          List.mem_filter.mpr ⟨hmem0, by simp [hi]⟩
        have hjm : (0 + j) ∈ ((enumIdx 0 apprs).filter fun p =>
            neosIndexLookup neos p.2._designation == some i).map Prod.fst :=
          List.mem_map.mpr ⟨(0 + j, a0), hfil, rfl⟩
        have hempty0 : n0.approaches = [] := hempty n0 (List.getElem?_mem hn0)
        show j ∈ n0.approaches ++ _
        rw [hempty0]
        simpa using hjm
      · intro i' n' hi' hd'
        rw [show (NEODatabase.mk neosOut out).neos = neosOut from rfl, hget i'] at hi'
        cases hm : neos[i']? with
        | none => rw [hm] at hi'; cases hi'
        | some m =>
          rw [hm] at hi'
          simp only [Option.map_some'] at hi'
          have hn' : n' = { m with approaches := m.approaches ++
              ((enumIdx 0 apprs).filter fun p =>
                neosIndexLookup neos p.2._designation == some i').map Prod.fst } :=
            (Option.some.inj hi').symm
          subst hn'
          have hmd : m.designation = a0._designation := hd'
          exact designation_index_unique neos huniq hm hn0 (hmd.trans hd0.symm)
  · intro i n hin j hj
    rw [show (NEODatabase.mk neosOut out).neos = neosOut from rfl, hget i] at hin
    cases hm : neos[i]? with
    | none => rw [hm] at hin; cases hin
    | some n0 =>
      rw [hm] at hin
      simp only [Option.map_some'] at hin
      have hn : n = { n0 with approaches := n0.approaches ++
          ((enumIdx 0 apprs).filter fun p =>
            neosIndexLookup neos p.2._designation == some i).map Prod.fst } :=
        (Option.some.inj hin).symm
      subst hn
      have hempty0 : n0.approaches = [] := hempty n0 (List.getElem?_mem hm)
      have hj' : j ∈ ((enumIdx 0 apprs).filter fun p =>
          neosIndexLookup neos p.2._designation == some i).map Prod.fst := by
        have hj2 : j ∈ n0.approaches ++ ((enumIdx 0 apprs).filter fun p =>
            neosIndexLookup neos p.2._designation == some i).map Prod.fst := hj
        rw [hempty0] at hj2
        simpa using hj2
      obtain ⟨p, hpfil, hpj⟩ := List.mem_map.mp hj'
      have hp := List.mem_filter.mp hpfil
      obtain ⟨k, hk1, hk2⟩ := getElem?_of_mem_enumIdx apprs 0 p hp.1
      have hkj : j = k := by omega
      subst hkj
      have hplook : neosIndexLookup neos p.2._designation = some i := by
        simpa using hp.2
      refine ⟨{ p.2 with neo := neosIndexLookup neos p.2._designation }, ?_, ?_, ?_⟩
      · show out[j]? = _
        rw [hout, List.getElem?_map, getElem?_enumIdx, hk2]
        rfl
      · show neosIndexLookup neos p.2._designation = some i
        exact hplook
      · obtain ⟨m, hmi, hmd⟩ := neosIndexLookup_designation neos p.2._designation i hplook
        rw [hm] at hmi
        have hmn0 : n0 = m := Option.some.inj hmi
        subst hmn0
        exact hmd.symm

theorem C1_bijective_link_invariant_witness :
    ∃ db, NEODatabase.build [⟨some "433", some "Eros", PyFloat.val 16, some false, []⟩]
        [⟨some "433", none, PyFloat.val 1, PyFloat.val 5, none⟩] = some db := by
  obtain ⟨db, hdb, -, -⟩ := C1_bijective_link_invariant
    [⟨some "433", some "Eros", PyFloat.val 16, some false, []⟩]
    [⟨some "433", none, PyFloat.val 1, PyFloat.val 5, none⟩]
    (by decide) (by decide) (by decide)
  exact ⟨db, hdb⟩

/-- C10: duplicate designations in the input NEO collection do not make
construction raise (every foreign key still resolves); afterwards, for any
NEO that is the last occurrence of its designation in the input,
`get_neo_by_designation` on that designation returns the database entry at
that last index (last-write-wins in the designation index), and every
approach carrying that designation as its foreign key is linked to that last
NEO. -/
theorem C10_duplicate_designation_last_wins (neos : List NearEarthObject)
    (apprs : List CloseApproach)
    (hmatch : ∀ a ∈ apprs, ∃ n ∈ neos, n.designation = a._designation)
    (_hdup : ∃ i j : Nat, ∃ n n', i < j ∧ neos[i]? = some n ∧ neos[j]? = some n' ∧
      n.designation = n'.designation) :
    ∃ db, NEODatabase.build neos apprs = some db ∧
      ∀ i : Nat, ∀ n, neos[i]? = some n →
        (∀ m : Nat, ∀ n', i < m → neos[m]? = some n' →
          n'.designation ≠ n.designation) →
        (optStrTruthy n.designation = true →
          db.get_neo_by_designation n.designation = db.neos[i]?) ∧
        ∀ j : Nat, ∀ a, db.approaches[j]? = some a →
          a._designation = n.designation → a.neo = some i := by
  have hsome : (linkAll (neosIndexLookup neos) neos (enumIdx 0 apprs)).isSome := by
    apply linkAll_isSome
    intro p hp
    obtain ⟨k, hk1, hk2⟩ := getElem?_of_mem_enumIdx apprs 0 p hp
    exact neosIndexLookup_isSome neos p.2._designation (hmatch p.2 (List.getElem?_mem hk2))
  rw [Option.isSome_iff_exists] at hsome
  obtain ⟨pair, hlink⟩ := hsome
  obtain ⟨neosOut, out⟩ := pair
  obtain ⟨hout, hlen, hget⟩ :=
    linkAll_some_spec (neosIndexLookup neos) (enumIdx 0 apprs) neos neosOut out hlink
  refine ⟨⟨neosOut, out⟩, by rw [NEODatabase.build, hlink], ?_⟩
  intro i n hin hlast
  have hlookN : neosIndexLookup neos n.designation = some i :=
    neosIndexLookup_eq_some_last neos n.designation i n hin rfl hlast
  constructor
  · intro htr
    have hiOut : neosOut[i]? = some { n with approaches := n.approaches ++
        ((enumIdx 0 apprs).filter fun p =>
          neosIndexLookup neos p.2._designation == some i).map Prod.fst } := by
      rw [hget i, hin]
      rfl
    have hlastOut : ∀ m n'', i < m → neosOut[m]? = some n'' →
        n''.designation ≠ n.designation := by
      intro m n'' hm hmn
      rw [hget m] at hmn
      cases hq : neos[m]? with
      | none => rw [hq] at hmn; cases hmn
      | some q =>
        rw [hq] at hmn
        simp only [Option.map_some'] at hmn
        have hq' : n'' = { q with approaches := q.approaches ++
            ((enumIdx 0 apprs).filter fun p =>
              neosIndexLookup neos p.2._designation == some m).map Prod.fst } :=
          (Option.some.inj hmn).symm
        subst hq'
        exact hlast m q hm hq
    have hlookOut : neosIndexLookup neosOut n.designation = some i :=
      neosIndexLookup_eq_some_last neosOut n.designation i _ hiOut rfl hlastOut
    show (NEODatabase.mk neosOut out).get_neo_by_designation n.designation = neosOut[i]?
    simp [NEODatabase.get_neo_by_designation, htr, hlookOut]
  · intro j a hja hd
    rw [show (NEODatabase.mk neosOut out).approaches = out from rfl, hout,
      List.getElem?_map, getElem?_enumIdx] at hja
    cases hk : apprs[j]? with
    | none => rw [hk] at hja; cases hja
    | some a0 =>
      rw [hk] at hja
      simp only [Option.map_some'] at hja
      have ha : a = { a0 with neo := neosIndexLookup neos a0._designation } :=
        (Option.some.inj hja).symm
      subst ha
      show neosIndexLookup neos a0._designation = some i
      have hd0 : a0._designation = n.designation := hd
      rw [hd0]
      exact hlookN

theorem C10_duplicate_designation_last_wins_witness :
    ∃ db, NEODatabase.build
        [⟨some "1", some "A", PyFloat.nan, none, []⟩,
          ⟨some "1", some "B", PyFloat.nan, none, []⟩]
        [⟨some "1", none, PyFloat.nan, PyFloat.nan, none⟩] = some db ∧
      db.get_neo_by_designation (some "1") = db.neos[1]? := by
  obtain ⟨db, hdb, hc⟩ := C10_duplicate_designation_last_wins
    [⟨some "1", some "A", PyFloat.nan, none, []⟩,
      ⟨some "1", some "B", PyFloat.nan, none, []⟩]
    [⟨some "1", none, PyFloat.nan, PyFloat.nan, none⟩]
    (by decide)
    ⟨0, 1, ⟨some "1", some "A", PyFloat.nan, none, []⟩,
      ⟨some "1", some "B", PyFloat.nan, none, []⟩, by omega, by decide, by decide, by decide⟩
  have hlast : ∀ m : Nat, ∀ n', 1 < m →
      ([⟨some "1", some "A", PyFloat.nan, none, []⟩,
        ⟨some "1", some "B", PyFloat.nan, none, []⟩] :
          List NearEarthObject)[m]? = some n' →
      n'.designation ≠ (some "1" : Option String) := by
    intro m n' hm hmn
    have hlen : ([⟨some "1", some "A", PyFloat.nan, none, []⟩,
        ⟨some "1", some "B", PyFloat.nan, none, []⟩] :
          List NearEarthObject).length ≤ m := by
      simp only [List.length_cons, List.length_nil]
      omega
    rw [List.getElem?_eq_none hlen] at hmn
    cases hmn
  obtain ⟨h1, -⟩ := hc 1 ⟨some "1", some "B", PyFloat.nan, none, []⟩ (by decide) hlast
  exact ⟨db, hdb, h1 (by decide)⟩

end NeoSpec
